import Mathlib

/-!
Verification of the core parsing and timeline-query layer of the `ics.py`
repository: a shallow embedding of `ics/grammar/parse.py` (content-line
tokenizer, container builder, line unfolder, entry points) and of the
timeline interval-query engine, with theorems settling the specified
properties.

Strings are modelled at character level as `List Char` (`PStr`), so that
the tokenizer grammar and the serializer can be reasoned about
structurally.
-/

abbrev PStr := List Char

/-- Character class for names in the content-line grammar (spec §6:
letters, digits, hyphen). -/
def nameChar (c : Char) : Bool :=
  (('A' ≤ c && c ≤ 'Z') || ('a' ≤ c && c ≤ 'z') || ('0' ≤ c && c ≤ '9') || c = '-')

/-- Characters allowed in a bare (unquoted) parameter value: anything that
does not terminate the value or open a quote, and no raw line breaks. -/
def safeChar (c : Char) : Bool :=
  !(c = ';' || c = ',' || c = ':' || c = '"' || c = '\r' || c = '\n')

/-- Characters allowed inside a quoted parameter value. -/
def qsafeChar (c : Char) : Bool :=
  !(c = '"' || c = '\r' || c = '\n')

/-- Characters allowed in the free-form value part (free text up to the end
of the logical line). -/
def valueChar (c : Char) : Bool :=
  !(c = '\r' || c = '\n')

/-- Errors surfaced by the embedded code, mirroring the Python exception
types (`ParseError`, `ValueError`, `TypeError`, `IndexError`) and their
messages. -/
inductive PyErr where
  | parseError (msg : PStr)
  | valueError (msg : PStr)
  | typeError (msg : PStr)
  | indexError
  deriving Repr, DecidableEq

/-- One content line `{name, params, value}`; `params` is an
insertion-ordered mapping (Python `dict`) modelled as an association list
with the insertion order explicit. Embeds class `ContentLine` of
`ics/grammar/parse.py`. -/
structure ContentLine where
  name : PStr
  params : List (PStr × List PStr)
  value : PStr
  deriving Repr, DecidableEq

/-- The `attr.ib(converter=str.upper)` on `ContentLine.name`: every
construction of a `ContentLine` upper-cases the name. -/
def mkContentLine (name : PStr) (params : List (PStr × List PStr)) (value : PStr) :
    ContentLine :=
  ⟨name.map Char.toUpper, params, value⟩

/-- `';{}={}'.format(pname, ','.join(values))` for one parameter, as in
`ContentLine.__str__`. -/
def paramStr (p : PStr × List PStr) : PStr :=
  ';' :: p.1 ++ '=' :: (List.intercalate [','] p.2)

/-- `ContentLine.__str__`: `"{}{}:{}".format(self.name, params_str, self.value)`
with `params_str` the concatenation of each parameter's `;NAME=v1,v2,...`. -/
def contentLineStr (t : ContentLine) : PStr :=
  t.name ++ (t.params.map paramStr).flatten ++ ':' :: t.value

/-- Python dict insertion `params[k] = v`: replace in place if the key is
present (keeping its original position), else append. -/
def dictInsert (d : List (PStr × List PStr)) (k : PStr) (v : List PStr) :
    List (PStr × List PStr) :=
  if d.any (fun q => q.1 = k) then
    d.map (fun q => if q.1 = k then (k, v) else q)
  else
    d ++ [(k, v)]

/-- Parse one parameter value: a quoted string (content between `"`)
or a bare run of safe characters. Modelled from the spec: the grammar file
`contentline.ebnf` is not under `src/`; per spec §6 "PARAM values may be
quoted or bare". Returns the value and the unconsumed rest. -/
def parseOneValue (cs : PStr) : Option (PStr × PStr) :=
  if cs.head? = some '"' then
    match cs.tail.dropWhile qsafeChar with
    | '"' :: rest2 => some (cs.tail.takeWhile qsafeChar, rest2)
    | _ => none
  else some (cs.takeWhile safeChar, cs.dropWhile safeChar)

theorem dropWhile_length_le (p : Char → Bool) (l : PStr) :
    (l.dropWhile p).length ≤ l.length := by
  induction l with
  | nil => simp
  | cons a t ih =>
      rw [List.dropWhile_cons]
      split
      · simp only [List.length_cons]; omega
      · simp

theorem parseOneValue_length :
    ∀ cs v rest, parseOneValue cs = some (v, rest) → rest.length ≤ cs.length := by
  intro cs v rest h
  unfold parseOneValue at h
  split at h
  · rename_i hq
    split at h
    · rename_i rest2 hd
      cases h
      have h1 : rest.length < (cs.tail.dropWhile qsafeChar).length := by
        rw [hd]; simp
      have h2 : (cs.tail.dropWhile qsafeChar).length ≤ cs.tail.length :=
        dropWhile_length_le qsafeChar cs.tail
      have h3 : cs.tail.length ≤ cs.length := by
        cases cs <;> simp
      omega
    · cases h
  · cases h
    exact dropWhile_length_le safeChar cs

/-- Parse `value ("," value)*` after a `=`. Modelled from the spec grammar
(§6): a parameter carries one or more comma-separated values. -/
def parseValues (cs : PStr) : Option (List PStr × PStr) :=
  match h : parseOneValue cs with
  | none => none
  | some (v, rest) =>
    if h2 : rest.head? = some ',' then
      match parseValues rest.tail with
      | none => none
      | some (vs, rest3) => some (v :: vs, rest3)
    else some ([v], rest)
termination_by cs.length
decreasing_by
  have hle := parseOneValue_length cs v rest h
  cases rest with
  | nil => simp at h2
  | cons a t => simp at hle ⊢; omega

theorem parseValues_length :
    ∀ cs vs rest, parseValues cs = some (vs, rest) → rest.length ≤ cs.length := by
  intro cs vs rest h
  induction cs using parseValues.induct generalizing vs rest with
  | case1 cs hnone =>
      rw [parseValues, hnone] at h
      cases h
  | case2 cs v r hone hcomma hnone ih =>
      rw [parseValues, hone] at h
      simp only [hcomma, dif_pos] at h
      rw [hnone] at h
      cases h
  | case3 cs v r hone hcomma vs2 r3 hsome ih =>
      rw [parseValues, hone] at h
      simp only [hcomma, dif_pos] at h
      rw [hsome] at h
      cases h
      have h1 := ih _ _ hsome
      have h2 := parseOneValue_length cs v r hone
      cases r with
      | nil => simp at hcomma
      | cons a t => simp at h1 h2 ⊢; omega
  | case4 cs v r hone hcomma =>
      rw [parseValues, hone] at h
      simp only [hcomma, dif_neg, not_false_iff] at h
      cases h
      exact parseOneValue_length _ _ _ hone

/-- Parse `(";" name "=" values)*`. Modelled from the spec grammar (§6):
an optional run of `;param-name=value[,value]*` groups. Returns the
parameters in declaration order and the unconsumed rest. -/
def parseParams (cs : PStr) : Option (List (PStr × List PStr) × PStr) :=
  if hsemi : cs.head? = some ';' then
    let pname := cs.tail.takeWhile nameChar
    if pname = [] then none
    else if heq : (cs.tail.dropWhile nameChar).head? = some '=' then
      match hv : parseValues (cs.tail.dropWhile nameChar).tail with
      | none => none
      | some (vs, rest2) =>
        match parseParams rest2 with
        | none => none
        | some (ps, rest3) => some ((pname, vs) :: ps, rest3)
    else none
  else some ([], cs)
termination_by cs.length
decreasing_by
  have hle := parseValues_length _ _ _ hv
  have h1 := dropWhile_length_le nameChar cs.tail
  have h2 : ((cs.tail.dropWhile nameChar).tail).length ≤
      (cs.tail.dropWhile nameChar).length := by
    cases cs.tail.dropWhile nameChar <;> simp
  cases cs with
  | nil => simp at hsemi
  | cons a t => simp only [List.tail_cons] at hle h1 h2 ⊢; simp; omega

/-- The full content-line grammar `name params ":" value $`. Modelled from
the spec (§6): the grammar file `contentline.ebnf` is not under `src/`;
`NAME(;PARAM-NAME=VALUE(,VALUE)*)*:VALUE` with NAME one or more name
characters and VALUE free text up to the end of the logical line. Returns
the raw AST `(name, params, value)`. -/
def grammarParse (cs : PStr) : Option (PStr × List (PStr × List PStr) × PStr) :=
  let n := cs.takeWhile nameChar
  if n = [] then none
  else
    match parseParams (cs.dropWhile nameChar) with
    | none => none
    | some (ps, rest) =>
      match rest with
      | ':' :: v => if v.all valueChar then some (n, ps, v) else none
      | _ => none

/-- `ContentLine.interpret_ast`: join the name/value character lists and
build the params dict in declaration order; the `ContentLine` constructor
upper-cases the name. -/
def interpretAst (ast : PStr × List (PStr × List PStr) × PStr) : ContentLine :=
  mkContentLine ast.1 (ast.2.1.foldl (fun d p => dictInsert d p.1 p.2) []) ast.2.2

/-- `ContentLine.parse`: reject lines with raw newlines (`ValueError`),
then run the grammar (`ParseError` on failure) and interpret the AST. -/
def contentLineParse (line : PStr) : Except PyErr ContentLine :=
  if line.any (fun c => c = '\n' || c = '\r') then
    .error (.valueError ("ContentLine can only contain escaped newlines".toList))
  else
    match grammarParse line with
    | none => .error (.parseError [])
    | some ast => .ok (interpretAst ast)

/-- An element of a `Container`: a `ContentLine` or a nested container
(`ContainerItem` in `ics/types.py`); nested containers are inlined as
name-plus-children. -/
inductive CItem where
  | line (cl : ContentLine)
  | cont (name : PStr) (items : List CItem)

/-- Class `Container` of `ics/grammar/parse.py`: a named ordered sequence
of `ContentLine`s or sub-containers (a `list` subclass in the source). -/
structure Container where
  name : PStr
  items : List CItem

/-- The loop body of `Container.parse`: consumes tokens from the shared
cursor, returning the collected items together with the *unconsumed* rest
of the token stream (the shared-iterator state after the recursion).
On input exhaustion the collected items are returned as they stand. -/
def containerParseAux : (lines : List ContentLine) → PStr →
    Except PyErr {p : List CItem × List ContentLine // p.2.length ≤ lines.length}
  | [], _ => .ok ⟨([], []), by simp⟩
  | l :: rest, name =>
    if l.name = "BEGIN".toList then
      match containerParseAux rest l.value with
      | .error e => .error e
      | .ok ⟨(sub, rest1), h1⟩ =>
        match containerParseAux rest1 name with
        | .error e => .error e
        | .ok ⟨(items, rest2), h2⟩ =>
          .ok ⟨(CItem.cont l.value sub :: items, rest2), by
            dsimp only at h1 h2; simp only [List.length_cons]; omega⟩
    else if l.name = "END".toList then
      if l.value = name then .ok ⟨([], rest), by simp⟩
      else .error (.parseError
        ("Expected END:".toList ++ name ++ ", got END:".toList ++ l.value))
    else
      match containerParseAux rest name with
      | .error e => .error e
      | .ok ⟨(items, rest1), h1⟩ =>
        .ok ⟨(CItem.line l :: items, rest1), by
          dsimp only at h1; simp only [List.length_cons]; omega⟩
termination_by lines => lines.length
decreasing_by
  · simp only [List.length_cons]; omega
  · dsimp only at h1; simp only [List.length_cons]; omega
  · simp only [List.length_cons]; omega

/-- `Container.parse(name, tokenized_lines)`: build the container named
`name` from the shared token cursor; also returns the tokens left
unconsumed on the cursor. -/
def containerParse (name : PStr) (lines : List ContentLine) :
    Except PyErr (Container × List ContentLine) :=
  match containerParseAux lines name with
  | .error e => .error e
  | .ok ⟨(items, rest), _⟩ => .ok (⟨name, items⟩, rest)

/-- Top-level `parse(tokenized_lines)`: dispatch `BEGIN` tokens to
`Container.parse` (sharing the cursor) and keep any other token —
including a stray top-level `END` — as a plain element. -/
def parseTop : (lines : List ContentLine) → Except PyErr (List CItem)
  | [] => .ok []
  | l :: rest =>
    if l.name = "BEGIN".toList then
      match containerParseAux rest l.value with
      | .error e => .error e
      | .ok ⟨(items, rest1), h1⟩ =>
        match parseTop rest1 with
        | .error e => .error e
        | .ok res => .ok (CItem.cont l.value items :: res)
    else
      match parseTop rest with
      | .error e => .error e
      | .ok res => .ok (CItem.line l :: res)
termination_by lines => lines.length
decreasing_by
  · dsimp only at h1; simp only [List.length_cons]; omega
  · simp only [List.length_cons]; omega

/-- Python `dict` lookup. -/
def dictLookup (d : List (PStr × List PStr)) (k : PStr) : Option (List PStr) :=
  match d.find? (fun q => q.1 == k) with
  | some q => some q.2
  | none => none

/-- Python `dict.__eq__`: same keys with the same values, insertion order
irrelevant. -/
def dictPyEq (a b : List (PStr × List PStr)) : Bool :=
  a.all (fun q => dictLookup b q.1 == some q.2) &&
    b.all (fun q => dictLookup a q.1 == some q.2)

/-- The `attrs`-generated `ContentLine.__eq__`: field-wise comparison of
`(name, params, value)`. -/
def contentLinePyEq (a b : ContentLine) : Bool :=
  a.name == b.name && dictPyEq a.params b.params && a.value == b.value

mutual
/-- Python `==` on container elements: `ContentLine`s compare field-wise;
`Container`s inherit `list.__eq__`, which compares the children
element-wise and ignores the `name` attribute (no `__eq__` override in
class `Container`); mixed kinds are unequal. -/
def citemPyEq : CItem → CItem → Bool
  | .line a, .line b => contentLinePyEq a b
  | .cont _ xs, .cont _ ys => citemListPyEq xs ys
  | .line _, .cont _ _ => false
  | .cont _ _, .line _ => false

/-- Python `list.__eq__`: same length and element-wise `==`. -/
def citemListPyEq : List CItem → List CItem → Bool
  | [], [] => true
  | x :: xs, y :: ys => citemPyEq x y && citemListPyEq xs ys
  | [], _ :: _ => false
  | _ :: _, [] => false
end

/-- Python `==` on two `Container`s: the inherited `list.__eq__`
(element-wise children comparison; the `name` attribute plays no part). -/
def containerPyEq (c d : Container) : Bool :=
  citemListPyEq c.items d.items

/-- Python whitespace for `str.strip()` (blank-line test). -/
def isSpaceChar (c : Char) : Bool :=
  (c = ' ' || c = '\t' || c = '\n' || c = '\r' || c = '\x0b' || c = '\x0c')

/-- A line is blank when `len(line.strip()) == 0`. -/
def isBlank (l : PStr) : Bool :=
  l.all isSpaceChar

/-- Python `line.strip('\r')`: remove *leading and trailing* carriage
returns. -/
def stripCR (l : PStr) : PStr :=
  (l.dropWhile (fun c => c == '\r')).rdropWhile (fun c => c == '\r')

/-- The accumulator loop of `unfold_lines`: skip blank lines, start the
accumulator from a fresh line, append continuation lines (first char
removed, CRs stripped), emit the accumulator when a fresh line arrives,
and flush the non-empty accumulator at the end. -/
def unfoldAux (current : PStr) : List PStr → List PStr
  | [] => if current.isEmpty then [] else [current]
  | l :: rest =>
    if isBlank l then unfoldAux current rest
    else if current.isEmpty then unfoldAux (stripCR l) rest
    else if l.head? = some ' ' || l.head? = some '\t' then
      unfoldAux (current ++ stripCR l.tail) rest
    else current :: unfoldAux (stripCR l) rest

/-- `unfold_lines(physical_lines)` on a list of physical lines. -/
def unfoldLines (physicalLines : List PStr) : List PStr :=
  unfoldAux [] physicalLines

/-- `tokenize_line`: tokenize each unfolded line; the first failing line
aborts with its error. -/
def tokenizeLines : List PStr → Except PyErr (List ContentLine)
  | [] => .ok []
  | l :: rest =>
    match contentLineParse l with
    | .error e => .error e
    | .ok t =>
      match tokenizeLines rest with
      | .error e => .error e
      | .ok ts => .ok (t :: ts)

/-- Characters at which Python `str.splitlines` breaks. -/
def lineBreakChar (c : Char) : Bool :=
  (c = '\n' || c = '\r' || c = '\x0b' || c = '\x0c' ||
    c = '\x1c' || c = '\x1d' || c = '\x1e' || c = '\x85' ||
    c = '\u2028' || c = '\u2029')

/-- Python `str.splitlines`, with `\r\n` counting as a single break and no
trailing empty line. -/
def splitlines : PStr → List PStr
  | [] => []
  | '\r' :: '\n' :: rest => [] :: splitlines rest
  | c :: rest =>
    if lineBreakChar c then [] :: splitlines rest
    else
      match splitlines rest with
      | [] => [c :: []]
      | l :: ls => (c :: l) :: ls

/-- `lines_to_container(lines)`: unfold, tokenize, build. -/
def linesToContainer (lines : List PStr) : Except PyErr (List CItem) :=
  match tokenizeLines (unfoldLines lines) with
  | .error e => .error e
  | .ok ts => parseTop ts

/-- `string_to_container(txt)`: split into physical lines and build. -/
def stringToContainer (txt : PStr) : Except PyErr (List CItem) :=
  linesToContainer (splitlines txt)

/-- Dynamically-typed Python values, as far as the type checks under
scrutiny can observe them: strings, integers, `None`, lists,
`ContentLine`s and `Container`s. -/
inductive PyVal where
  | vStr (s : PStr)
  | vInt (n : Int)
  | vNone
  | vList (xs : List PyVal)
  | vLine (cl : ContentLine)
  | vCont (name : PStr) (items : List CItem)

/-- `isinstance(v, (ContentLine, Container))`. -/
def isItemVal : PyVal → Bool
  | .vLine _ => true
  | .vCont _ _ => true
  | _ => false

/-- View of a `PyVal` that is a valid container element. -/
def toCItem : PyVal → Option CItem
  | .vLine cl => some (.line cl)
  | .vCont n xs => some (.cont n xs)
  | _ => none

/-- Modelled from the spec: `check_is_instance` lives in `ics/utils.py`,
which is not under `src/`; per the spec invariant it rejects, with a
`TypeError`, every value that is not a Token (`ContentLine`) or
`Container`. -/
def checkIsInstance (v : PyVal) : Except PyErr CItem :=
  match toCItem v with
  | some it => .ok it
  | none => .error (.typeError ("item must be an instance of ContentLine or Container".toList))

/-- `Container.check_items(*items)`: check every candidate element (the
single-item and multi-item branches of the source enforce the same
instance check). -/
def checkItems : List PyVal → Except PyErr (List CItem)
  | [] => .ok []
  | v :: vs =>
    match checkIsInstance v with
    | .error e => .error e
    | .ok it =>
      match checkItems vs with
      | .error e => .error e
      | .ok its => .ok (it :: its)

/-- Outcome of a mutating container operation: the (possibly unchanged)
container together with the exception raised, if any. -/
structure MutResult where
  result : Container
  err : Option PyErr

/-- `Container.__init__(name, *items)`: validate, then initialise. -/
def containerInit (name : PStr) (vs : List PyVal) : Except PyErr Container :=
  match checkItems vs with
  | .error e => .error e
  | .ok its => .ok ⟨name, its⟩

/-- `Container.append(value)`: validate, then delegate to `list.append`. -/
def containerAppend (c : Container) (v : PyVal) : MutResult :=
  match checkIsInstance v with
  | .error e => ⟨c, some e⟩
  | .ok it => ⟨⟨c.name, c.items ++ [it]⟩, none⟩

/-- Python `list.insert` index arithmetic: negative indices count from the
end, and out-of-range indices clamp. -/
def pyInsertPos (i : Int) (n : Nat) : Nat :=
  if i < 0 then (max 0 (n + i)).toNat else min i.toNat n

/-- `Container.insert(index, value)`: validate, then `list.insert`. -/
def containerInsert (c : Container) (i : Int) (v : PyVal) : MutResult :=
  match checkIsInstance v with
  | .error e => ⟨c, some e⟩
  | .ok it => ⟨⟨c.name, c.items.insertIdx (pyInsertPos i c.items.length) it⟩, none⟩

/-- `Container.__setitem__(index, value)`: validate the value first, then
`list.__setitem__`, which raises `IndexError` out of range (negative
indices count from the end). -/
def containerSetItem (c : Container) (i : Int) (v : PyVal) : MutResult :=
  match checkIsInstance v with
  | .error e => ⟨c, some e⟩
  | .ok it =>
    let n : Int := c.items.length
    if -n ≤ i ∧ i < n then
      ⟨⟨c.name, c.items.set (if i < 0 then i + n else i).toNat it⟩, none⟩
    else ⟨c, some .indexError⟩

/-- `Container.extend(values)`: validate every value first, then
`list.extend`. -/
def containerExtend (c : Container) (vs : List PyVal) : MutResult :=
  match checkItems vs with
  | .error e => ⟨c, some e⟩
  | .ok its => ⟨⟨c.name, c.items ++ its⟩, none⟩

/-- The injection of a container element back into the dynamic world. -/
def citemToPyVal : CItem → PyVal
  | .line cl => .vLine cl
  | .cont n xs => .vCont n xs

/-- `Container.__add__(values)`: build a fresh container with the same
name, extend it with `self`'s elements and then with `values`; `self` is
never mutated. -/
def containerAdd (c : Container) (vs : List PyVal) : Except PyErr Container :=
  match containerExtend ⟨c.name, []⟩ (c.items.map citemToPyVal) with
  | ⟨_, some e⟩ => .error e
  | ⟨c1, none⟩ =>
    match containerExtend c1 vs with
    | ⟨_, some e⟩ => .error e
    | ⟨c2, none⟩ => .ok c2

/-- `Container.__iadd__(values)`: `self.extend(values)`. -/
def containerIAdd (c : Container) (vs : List PyVal) : MutResult :=
  containerExtend c vs

/-- `isinstance(v, collections.abc.Iterable)`: strings, lists and
containers (a `list` subclass) are iterable; integers and `None` are
not; `ContentLine` defines no `__iter__`. -/
def pyIterable : PyVal → Bool
  | .vStr _ => true
  | .vList _ => true
  | .vCont _ _ => true
  | _ => false

/-- `unfold_lines` on a dynamic argument: the up-front
`isinstance(physical_lines, collections.abc.Iterable)` check raises
`ParseError` before any line is examined; iterating a list of strings
processes those strings, iterating a string processes its one-character
substrings; iterable elements that are not strings fail only later,
when `line.strip()` is attempted on them (`TypeError` here standing for
the attribute error Python would raise). -/
def unfoldLinesDyn (v : PyVal) : Except PyErr (List PStr) :=
  if pyIterable v then
    match v with
    | .vStr s => .ok (unfoldLines (s.map (fun c => [c])))
    | .vList xs =>
      if xs.all (fun x => match x with | .vStr _ => true | _ => false) then
        .ok (unfoldLines (xs.filterMap (fun x => match x with | .vStr s => some s | _ => none)))
      else .error (.typeError ("line elements must be strings".toList))
    | _ => .error (.typeError ("line elements must be strings".toList))
  else .error (.parseError ("Parameter `physical_lines` must be an iterable".toList))

/-- `calendar_string_to_containers(string)`: reject non-strings with
`TypeError("Expecting a string")`, else `string_to_container(string)`. -/
def calendarStringToContainers (v : PyVal) : Except PyErr (List CItem) :=
  match v with
  | .vStr s => stringToContainer s
  | _ => .error (.typeError ("Expecting a string".toList))

/-- A time-bounded record of the interval query engine. Modelled from the
spec: `ics/timeline.py` and `ics/event.py` are not under `src/`; per spec
§3 a record exposes an optional start instant and an optional end instant
(instants here as integers), plus an identity for stable ordering. -/
structure Event where
  uid : Nat
  eventBegin : Option Int
  eventEnd : Option Int
  deriving Repr, DecidableEq

/-- The start key used to order records (only ever applied to records
that have a start). -/
def startKey (ev : Event) : Int :=
  ev.eventBegin.getD 0

/-- "end-or-start": the end instant, or the start when the record has no
end (instantaneous record). -/
def endOr (ev : Event) : Int :=
  ev.eventEnd.getD (startKey ev)

/-- The start-ascending order on records. -/
def startLE (x y : Event) : Prop :=
  startKey x ≤ startKey y

instance : DecidableRel startLE := fun x y => by
  unfold startLE; infer_instance

instance : IsTotal Event startLE :=
  ⟨fun x y => le_total (startKey x) (startKey y)⟩

instance : IsTrans Event startLE :=
  ⟨fun _ _ _ h1 h2 => le_trans h1 h2⟩

/-- Timeline iteration. Modelled from the spec (§4.4): records missing a
start instant are excluded; the rest are visited in start-ascending order
with a stable tie-break. -/
def timelineIter (evs : List Event) : List Event :=
  List.insertionSort startLE (evs.filter (fun ev => ev.eventBegin.isSome))

/-- The `included` window condition: start ≥ begin and end-or-start ≤ end. -/
def includedCond (b e : Int) (ev : Event) : Bool :=
  decide (b ≤ startKey ev) && decide (endOr ev ≤ e)

/-- `Timeline.included(begin, end)`. Modelled from the spec (§4.4): every
iterated record fully contained in the window, in iteration order. -/
def included (evs : List Event) (b e : Int) : List Event :=
  (timelineIter evs).filter (includedCond b e)

/-- The `overlapping` window condition: non-empty inclusive intersection of
`[start, end-or-start]` with `[begin, end]`. -/
def overlappingCond (b e : Int) (ev : Event) : Bool :=
  decide (startKey ev ≤ e) && decide (b ≤ endOr ev)

/-- `Timeline.overlapping(begin, end)`. Modelled from the spec (§4.4). -/
def overlapping (evs : List Event) (b e : Int) : List Event :=
  (timelineIter evs).filter (overlappingCond b e)

/-- Instants measured in minutes; the start of the calendar day containing
an instant. -/
def dayStart (t : Int) : Int :=
  (t.ediv 1440) * 1440

/-- `Timeline.on(instant, strict)`. Modelled from the spec (§4.4): strict
mode is `overlapping(instant, instant)`; non-strict mode widens the
instant to its whole calendar day. -/
def onQuery (evs : List Event) (i : Int) (strict : Bool) : List Event :=
  if strict then overlapping evs i i
  else overlapping evs (dayStart i) (dayStart i + 1440)

/-! ### Unfolding lemmas for the container builder -/

/-- `containerParseAux` with the termination bound erased. -/
def containerParseV (lines : List ContentLine) (name : PStr) :
    Except PyErr (List CItem × List ContentLine) :=
  (containerParseAux lines name).map Subtype.val

theorem cpv_nil (name : PStr) : containerParseV [] name = .ok ([], []) := by
  simp [containerParseV, containerParseAux, Except.map]

theorem cpv_plain_cons (l : ContentLine) (rest : List ContentLine) (name : PStr)
    (h1 : l.name ≠ "BEGIN".toList) (h2 : l.name ≠ "END".toList) :
    containerParseV (l :: rest) name =
      (containerParseV rest name).map (fun p => (CItem.line l :: p.1, p.2)) := by
  simp only [containerParseV, containerParseAux, h1, h2, if_neg, if_false]
  cases h : containerParseAux rest name with
  | error e => simp [Except.map]
  | ok p => obtain ⟨⟨items, r⟩, hp⟩ := p; simp [Except.map]

theorem cpv_end (l : ContentLine) (rest : List ContentLine) (name : PStr)
    (hB : l.name ≠ "BEGIN".toList) (hE : l.name = "END".toList) :
    containerParseV (l :: rest) name =
      (if l.value = name then .ok ([], rest)
       else .error (.parseError
        ("Expected END:".toList ++ name ++ ", got END:".toList ++ l.value))) := by
  simp only [containerParseV, containerParseAux, hB, hE, if_neg, if_false, if_true]
  by_cases hv : l.value = name
  · simp [hv, Except.map]
  · simp [hv, Except.map]

theorem cpv_begin (l : ContentLine) (rest : List ContentLine) (name : PStr)
    (hB : l.name = "BEGIN".toList) :
    containerParseV (l :: rest) name =
      (match containerParseV rest l.value with
       | .error e => .error e
       | .ok (sub, rest1) =>
         (containerParseV rest1 name).map (fun p => (CItem.cont l.value sub :: p.1, p.2))) := by
  simp only [containerParseV, containerParseAux, hB, if_true]
  cases h : containerParseAux rest l.value with
  | error e => simp [Except.map]
  | ok p =>
      obtain ⟨⟨sub, rest1⟩, hp⟩ := p
      simp only [Except.map]
      cases h2 : containerParseAux rest1 name with
      | error e => simp [Except.map]
      | ok q => obtain ⟨⟨items, rest2⟩, hq⟩ := q; simp [Except.map]

theorem containerParse_eq (name : PStr) (lines : List ContentLine) :
    containerParse name lines =
      (containerParseV lines name).map (fun p => (Container.mk name p.1, p.2)) := by
  simp only [containerParse, containerParseV]
  cases h : containerParseAux lines name with
  | error e => simp [Except.map]
  | ok p => obtain ⟨⟨items, r⟩, hp⟩ := p; simp [Except.map]

theorem cpv_plain_list (name : PStr) (pre suffix : List ContentLine)
    (hpre : ∀ p ∈ pre, p.name ≠ "BEGIN".toList ∧ p.name ≠ "END".toList) :
    containerParseV (pre ++ suffix) name =
      (containerParseV suffix name).map (fun p => (pre.map CItem.line ++ p.1, p.2)) := by
  induction pre with
  | nil =>
      simp only [List.nil_append, List.map_nil]
      cases h : containerParseV suffix name with
      | error e => simp [Except.map]
      | ok p => simp [Except.map]
  | cons l rest ih =>
      have h1 := (hpre l (List.mem_cons_self l rest)).1
      have h2 := (hpre l (List.mem_cons_self l rest)).2
      rw [List.cons_append, cpv_plain_cons l (rest ++ suffix) name h1 h2,
        ih (fun p hp => hpre p (List.mem_cons_of_mem l hp))]
      cases h : containerParseV suffix name with
      | error e => simp [Except.map]
      | ok p => simp [Except.map]

theorem parseTop_nil : parseTop [] = .ok [] := by
  simp [parseTop]

theorem parseTop_begin (l : ContentLine) (rest : List ContentLine)
    (hB : l.name = "BEGIN".toList) :
    parseTop (l :: rest) =
      (match containerParseV rest l.value with
       | .error e => .error e
       | .ok (items, rest1) =>
         (parseTop rest1).map (fun res => CItem.cont l.value items :: res)) := by
  rw [parseTop]
  simp only [hB, if_true, containerParseV]
  cases h : containerParseAux rest l.value with
  | error e => simp [Except.map]
  | ok p =>
      obtain ⟨⟨items, rest1⟩, hp⟩ := p
      simp only [Except.map]
      cases h2 : parseTop rest1 with
      | error e => simp
      | ok res => simp

theorem parseTop_plain (l : ContentLine) (rest : List ContentLine)
    (hB : l.name ≠ "BEGIN".toList) :
    parseTop (l :: rest) = (parseTop rest).map (fun res => CItem.line l :: res) := by
  rw [parseTop]
  simp only [hB, if_neg, if_false]
  cases h2 : parseTop rest with
  | error e => simp [Except.map]
  | ok res => simp [Except.map]

/-! ### Claim C1 -/

/-- C1 counterexample: a `BEGIN:VEVENT` token with the input exhausted
before any matching `END` does not raise: the builder returns a
(partial) tree holding an empty `VEVENT` container. -/
theorem c1_unterminated_begin_returns_partial_tree :
    parseTop [ContentLine.mk ("BEGIN".toList) [] ("VEVENT".toList)] =
      .ok [CItem.cont ("VEVENT".toList) []] := by
  rw [parseTop_begin _ _ rfl, cpv_nil]
  simp [parseTop_nil, Except.map]

/-- C1 (amended): when the token stream is exhausted while a block is
still open, `Container.parse` raises no error and returns the partial
best-effort container holding the elements collected so far (here for
a block whose remaining tokens are all plain lines). -/
theorem c1_exhausted_block_returns_partial_container (name : PStr)
    (lines : List ContentLine)
    (h : ∀ l ∈ lines, l.name ≠ "BEGIN".toList ∧ l.name ≠ "END".toList) :
    containerParse name lines = .ok (⟨name, lines.map CItem.line⟩, []) := by
  rw [containerParse_eq]
  have hp := cpv_plain_list name lines [] h
  rw [List.append_nil] at hp
  rw [hp, cpv_nil]
  simp [Except.map]

/-- C1 witness: the amended statement at a concrete open `VEVENT` block
with one `SUMMARY` line and no `END`. -/
theorem c1_exhausted_block_witness :
    containerParse ("VEVENT".toList)
        [ContentLine.mk ("SUMMARY".toList) [] ("x".toList)] =
      .ok (⟨"VEVENT".toList,
        [CItem.line (ContentLine.mk ("SUMMARY".toList) [] ("x".toList))]⟩, []) :=
  c1_exhausted_block_returns_partial_container _ _ (by decide)

/-! ### Claim C3 -/

/-- C3: inside a block named `name`, an `END` token whose value differs
from `name` aborts `Container.parse` with a `ParseError` citing the
expected and the actual name, while an `END` token whose value equals
`name` terminates the block normally, returning the elements collected
so far and leaving the remaining tokens on the shared cursor. -/
theorem c3_end_token_matching (name : PStr) (pre : List ContentLine)
    (hpre : ∀ p ∈ pre, p.name ≠ "BEGIN".toList ∧ p.name ≠ "END".toList)
    (l : ContentLine) (rest : List ContentLine) (hE : l.name = "END".toList) :
    (l.value ≠ name →
      containerParse name (pre ++ l :: rest) =
        .error (.parseError
          ("Expected END:".toList ++ name ++ ", got END:".toList ++ l.value))) ∧
    (l.value = name →
      containerParse name (pre ++ l :: rest) = .ok (⟨name, pre.map CItem.line⟩, rest)) := by
  have hB : l.name ≠ "BEGIN".toList := by rw [hE]; decide
  constructor <;> intro hv
  · rw [containerParse_eq, cpv_plain_list name pre _ hpre, cpv_end l rest name hB hE,
      if_neg hv]
    simp [Except.map]
  · rw [containerParse_eq, cpv_plain_list name pre _ hpre, cpv_end l rest name hB hE,
      if_pos hv]
    simp [Except.map]

/-- C3 witness: parsing inside `VEVENT`, the token `END:VTODO` raises
`ParseError("Expected END:VEVENT, got END:VTODO")` while `END:VEVENT`
closes the block normally. -/
theorem c3_end_token_witness :
    (containerParse ("VEVENT".toList)
        [ContentLine.mk ("END".toList) [] ("VTODO".toList)] =
      .error (.parseError ("Expected END:".toList ++ "VEVENT".toList ++
        ", got END:".toList ++ "VTODO".toList))) ∧
    (containerParse ("VEVENT".toList)
        [ContentLine.mk ("END".toList) [] ("VEVENT".toList)] =
      .ok (⟨"VEVENT".toList, []⟩, [])) :=
  ⟨(c3_end_token_matching ("VEVENT".toList) [] (by simp)
      (ContentLine.mk ("END".toList) [] ("VTODO".toList)) [] rfl).1 (by decide),
   (c3_end_token_matching ("VEVENT".toList) [] (by simp)
      (ContentLine.mk ("END".toList) [] ("VEVENT".toList)) [] rfl).2 rfl⟩

/-! ### Claim C2 -/

/-- Element-wise characterization of Python `list.__eq__` on container
children. -/
theorem citemListPyEq_iff : ∀ xs ys : List CItem,
    citemListPyEq xs ys = true ↔
      (xs.length = ys.length ∧
        ∀ i (h1 : i < xs.length) (h2 : i < ys.length),
          citemPyEq (xs.get ⟨i, h1⟩) (ys.get ⟨i, h2⟩) = true)
  | [], [] => by simp [citemListPyEq]
  | [], y :: ys => by simp [citemListPyEq]
  | x :: xs, [] => by simp [citemListPyEq]
  | x :: xs, y :: ys => by
      rw [citemListPyEq, Bool.and_eq_true, citemListPyEq_iff xs ys]
      constructor
      · rintro ⟨hxy, hlen, hall⟩
        refine ⟨by simp [hlen], ?_⟩
        intro i h1 h2
        match i with
        | 0 => exact hxy
        | n + 1 =>
            simp only [List.get_cons_succ]
            exact hall n (by simpa using h1) (by simpa using h2)
      · rintro ⟨hlen, hall⟩
        refine ⟨hall 0 (by simp) (by simp), by simpa using hlen, ?_⟩
        intro i h1 h2
        have := hall (i + 1) (by simpa using h1) (by simpa using h2)
        simpa using this

/-- C2 counterexample: two empty containers named `VEVENT` and `VTODO`
compare equal under Python `==` although their names differ, refuting
"same name" as a necessary condition for container equality. -/
theorem c2_different_names_still_equal :
    containerPyEq ⟨"VEVENT".toList, []⟩ ⟨"VTODO".toList, []⟩ = true ∧
      ("VEVENT".toList : PStr) ≠ "VTODO".toList := by
  constructor
  · rfl
  · decide

/-- C2 (amended): two containers are equal under Python `==` iff they have
the same ordered children, compared element-wise (and recursively via
`citemPyEq`); the container name takes no part in the comparison
(`Container` inherits `list.__eq__` and overrides nothing). -/
theorem c2_container_equality_is_elementwise_ignoring_name :
    ∀ c d : Container,
      (containerPyEq c d = true ↔
        (c.items.length = d.items.length ∧
          ∀ i (h1 : i < c.items.length) (h2 : i < d.items.length),
            citemPyEq (c.items.get ⟨i, h1⟩) (d.items.get ⟨i, h2⟩) = true)) ∧
      (∀ n m : PStr, containerPyEq ⟨n, c.items⟩ ⟨m, d.items⟩ = containerPyEq c d) :=
  fun c d => ⟨citemListPyEq_iff c.items d.items, fun _ _ => rfl⟩

/-! ### Claim C4 -/

theorem checkIsInstance_not_item (v : PyVal) (h : isItemVal v = false) :
    checkIsInstance v =
      .error (.typeError ("item must be an instance of ContentLine or Container".toList)) := by
  cases v <;> simp_all [checkIsInstance, toCItem, isItemVal]

theorem checkIsInstance_item (v : PyVal) (h : isItemVal v = true) :
    ∃ it, toCItem v = some it ∧ checkIsInstance v = .ok it := by
  cases v <;> simp_all [checkIsInstance, toCItem, isItemVal]

theorem checkItems_error (vs : List PyVal) (h : ∃ x ∈ vs, isItemVal x = false) :
    checkItems vs =
      .error (.typeError ("item must be an instance of ContentLine or Container".toList)) := by
  induction vs with
  | nil => simp at h
  | cons v rest ih =>
      obtain ⟨x, hx, hitem⟩ := h
      rw [checkItems]
      by_cases hv : isItemVal v = true
      · obtain ⟨it, _, hok⟩ := checkIsInstance_item v hv
        rw [hok]
        have hxrest : x ∈ rest := by
          rcases List.mem_cons.mp hx with rfl | hr
          · rw [hv] at hitem; cases hitem
          · exact hr
        rw [ih ⟨x, hxrest, hitem⟩]
      · rw [checkIsInstance_not_item v (Bool.not_eq_true _ ▸ hv)]

theorem checkItems_ok (vs : List PyVal) (h : ∀ x ∈ vs, isItemVal x = true) :
    checkItems vs = .ok (vs.filterMap toCItem) := by
  induction vs with
  | nil => simp [checkItems]
  | cons v rest ih =>
      obtain ⟨it, hto, hok⟩ := checkIsInstance_item v (h v (List.mem_cons_self v rest))
      rw [checkItems, hok, ih (fun x hx => h x (List.mem_cons_of_mem v hx))]
      simp [List.filterMap_cons, hto]

theorem checkItems_roundtrip (items : List CItem) :
    checkItems (items.map citemToPyVal) = .ok items := by
  induction items with
  | nil => simp [checkItems]
  | cons it rest ih =>
      have hinst : checkIsInstance (citemToPyVal it) = .ok it := by
        cases it <;> simp [citemToPyVal, checkIsInstance, toCItem]
      simp only [List.map_cons, checkItems, hinst, ih]

/-- C4: every mutating container operation — construction, append, insert,
index assignment, extend, concatenation and in-place concatenation —
rejects, with a `TypeError`, any value that is not a `ContentLine` or a
`Container`, and leaves the container unchanged on rejection; on valid
values the operation succeeds and the container again holds only
`ContentLine`s and `Container`s (the element type `CItem`). -/
theorem c4_mutations_reject_non_items (name : PStr) (c : Container) (i : Int)
    (v : PyVal) (vs : List PyVal) :
    (isItemVal v = false →
      (containerAppend c v).result = c ∧ (containerAppend c v).err.isSome ∧
      (containerInsert c i v).result = c ∧ (containerInsert c i v).err.isSome ∧
      (containerSetItem c i v).result = c ∧ (containerSetItem c i v).err.isSome) ∧
    ((∃ x ∈ vs, isItemVal x = false) →
      containerInit name vs =
        .error (.typeError ("item must be an instance of ContentLine or Container".toList)) ∧
      (containerExtend c vs).result = c ∧ (containerExtend c vs).err.isSome ∧
      containerAdd c vs =
        .error (.typeError ("item must be an instance of ContentLine or Container".toList)) ∧
      (containerIAdd c vs).result = c ∧ (containerIAdd c vs).err.isSome) ∧
    ((∀ x ∈ vs, isItemVal x = true) →
      containerInit name vs = .ok ⟨name, vs.filterMap toCItem⟩ ∧
      (containerExtend c vs).result = ⟨c.name, c.items ++ vs.filterMap toCItem⟩ ∧
      (containerExtend c vs).err = none ∧
      containerAdd c vs = .ok ⟨c.name, c.items ++ vs.filterMap toCItem⟩) ∧
    (isItemVal v = true →
      ∃ it, toCItem v = some it ∧
        (containerAppend c v).result = ⟨c.name, c.items ++ [it]⟩ ∧
        (containerAppend c v).err = none) := by
  refine ⟨?_, ?_, ?_, ?_⟩
  · intro h
    have he := checkIsInstance_not_item v h
    refine ⟨?_, ?_, ?_, ?_, ?_, ?_⟩ <;>
      simp [containerAppend, containerInsert, containerSetItem, he]
  · intro h
    have he := checkItems_error vs h
    have hadd : containerAdd c vs =
        .error (.typeError ("item must be an instance of ContentLine or Container".toList)) := by
      simp only [containerAdd, containerExtend, checkItems_roundtrip, he]
    refine ⟨?_, ?_, ?_, hadd, ?_, ?_⟩ <;>
      simp [containerInit, containerExtend, containerIAdd, he]
  · intro h
    have he := checkItems_ok vs h
    have hadd : containerAdd c vs = .ok ⟨c.name, c.items ++ vs.filterMap toCItem⟩ := by
      simp only [containerAdd, containerExtend, checkItems_roundtrip, he, List.nil_append]
    refine ⟨?_, ?_, ?_, hadd⟩ <;>
      simp [containerInit, containerExtend, he]
  · intro h
    obtain ⟨it, hto, hok⟩ := checkIsInstance_item v h
    exact ⟨it, hto, by simp [containerAppend, hok], by simp [containerAppend, hok]⟩

/-- C4 witness: appending the plain string `"oops"` to an empty
`VCALENDAR` container raises and leaves the container unchanged, while
appending a `ContentLine` succeeds. -/
theorem c4_mutations_witness :
    ((containerAppend ⟨"VCALENDAR".toList, []⟩ (.vStr ("oops".toList))).result =
        ⟨"VCALENDAR".toList, []⟩ ∧
      (containerAppend ⟨"VCALENDAR".toList, []⟩ (.vStr ("oops".toList))).err.isSome) ∧
    ((containerAppend ⟨"VCALENDAR".toList, []⟩
        (.vLine (ContentLine.mk ("SUMMARY".toList) [] ("x".toList)))).err = none) :=
  ⟨⟨((c4_mutations_reject_non_items ("VCALENDAR".toList) ⟨"VCALENDAR".toList, []⟩ 0
        (.vStr ("oops".toList)) []).1 rfl).1,
    ((c4_mutations_reject_non_items ("VCALENDAR".toList) ⟨"VCALENDAR".toList, []⟩ 0
        (.vStr ("oops".toList)) []).1 rfl).2.1⟩,
   by
    obtain ⟨it, hto, hres, herr⟩ :=
      (c4_mutations_reject_non_items ("VCALENDAR".toList) ⟨"VCALENDAR".toList, []⟩ 0
        (.vLine (ContentLine.mk ("SUMMARY".toList) [] ("x".toList))) []).2.2.2 rfl
    exact herr⟩

/-! ### Claim C7 -/

/-- C7: an input that is not iterable makes the line unfolder fail with
the input-shape `ParseError` — the `isinstance` check is the first thing
the unfolder does, before any line is examined. -/
theorem c7_non_iterable_input_rejected (v : PyVal) (h : pyIterable v = false) :
    unfoldLinesDyn v =
      .error (.parseError ("Parameter `physical_lines` must be an iterable".toList)) := by
  cases v <;> simp_all [unfoldLinesDyn, pyIterable]

/-- C7 witness: the integer `42` is not iterable and is rejected with the
input-shape error. -/
theorem c7_non_iterable_witness :
    unfoldLinesDyn (.vInt 42) =
      .error (.parseError ("Parameter `physical_lines` must be an iterable".toList)) :=
  c7_non_iterable_input_rejected (.vInt 42) rfl

/-! ### Claim C10 -/

/-- C10: `calendar_string_to_containers` raises
`TypeError("Expecting a string")` on every non-string input — the
`isinstance` check precedes the parsing pipeline — and on string input
returns exactly `string_to_container` of that string. -/
theorem c10_calendar_string_type_check :
    (∀ v : PyVal, (∀ s, v ≠ .vStr s) →
      calendarStringToContainers v =
        .error (.typeError ("Expecting a string".toList))) ∧
    (∀ s : PStr, calendarStringToContainers (.vStr s) = stringToContainer s) := by
  constructor
  · intro v hv
    cases v with
    | vStr s => exact absurd rfl (hv s)
    | vInt n => rfl
    | vNone => rfl
    | vList xs => rfl
    | vLine cl => rfl
    | vCont n items => rfl
  · intro s
    rfl

/-! ### Claim C9 -/

/-- C9: a record with no start instant never appears in timeline
iteration nor in the result of any interval query (`included`,
`overlapping`, `on` — strict or not). -/
theorem c9_startless_records_excluded (evs : List Event) (ev : Event)
    (b e i : Int) (strict : Bool) (h : ev.eventBegin = none) :
    ev ∉ timelineIter evs ∧ ev ∉ included evs b e ∧
      ev ∉ overlapping evs b e ∧ ev ∉ onQuery evs i strict := by
  have hiter : ev ∉ timelineIter evs := by
    intro hm
    rw [timelineIter] at hm
    have hmem := (List.mem_insertionSort startLE).mp hm
    have := (List.mem_filter.mp hmem).2
    rw [h] at this
    simp at this
  have hincl : ev ∉ included evs b e := by
    intro hm
    exact hiter (List.mem_filter.mp hm).1
  have hover : ∀ b2 e2 : Int, ev ∉ overlapping evs b2 e2 := by
    intro b2 e2 hm
    exact hiter (List.mem_filter.mp hm).1
  refine ⟨hiter, hincl, hover b e, ?_⟩
  cases strict with
  | true => exact hover i i
  | false => exact hover (dayStart i) (dayStart i + 1440)

/-- C9 witness: a record with no start is absent from iteration and from
the three queries on a concrete two-record timeline. -/
theorem c9_startless_witness :
    (⟨0, none, none⟩ : Event) ∉ timelineIter [⟨0, none, none⟩, ⟨1, some 0, none⟩] ∧
      (⟨0, none, none⟩ : Event) ∉ included [⟨0, none, none⟩, ⟨1, some 0, none⟩] 0 10 ∧
      (⟨0, none, none⟩ : Event) ∉ overlapping [⟨0, none, none⟩, ⟨1, some 0, none⟩] 0 10 ∧
      (⟨0, none, none⟩ : Event) ∉ onQuery [⟨0, none, none⟩, ⟨1, some 0, none⟩] 5 false :=
  c9_startless_records_excluded [⟨0, none, none⟩, ⟨1, some 0, none⟩]
    ⟨0, none, none⟩ 0 10 5 false rfl

/-! ### Claim C8 -/

/-- C8: `included(begin, end)` returns, sorted ascending by start, exactly
the records of the collection that have a start `s ≥ begin` and whose
end-or-start is `≤ end`; and on the concrete five-record collection of
the spec's test vector (dates encoded as `YYYYMMDD` integers) the query
`included(2013-10-10, 2017-10-10)` returns exactly the records starting
`2015-01-10` and `2015-10-10`, in that order. -/
theorem c8_included_exactly_contained_sorted :
    (∀ (evs : List Event) (b e : Int),
      (included evs b e).Sorted startLE ∧
      (included evs b e).Perm
        (evs.filter (fun ev => ev.eventBegin.isSome && includedCond b e ev)) ∧
      (∀ ev, ev ∈ included evs b e ↔
        (ev ∈ evs ∧ ∃ s, ev.eventBegin = some s ∧ b ≤ s ∧ endOr ev ≤ e))) ∧
    included
      [⟨0, some 20151010, none⟩, ⟨1, some 20101010, none⟩,
       ⟨2, some 20201010, none⟩, ⟨3, some 20150110, none⟩,
       ⟨4, some 20140110, some 20180110⟩]
      20131010 20171010 =
      [⟨3, some 20150110, none⟩, ⟨0, some 20151010, none⟩] := by
  constructor
  · intro evs b e
    have hsorted : (included evs b e).Sorted startLE := by
      have h1 : (timelineIter evs).Sorted startLE :=
        List.sorted_insertionSort startLE _
      exact List.Pairwise.sublist (List.filter_sublist _) h1
    have hperm : (included evs b e).Perm
        (evs.filter (fun ev => ev.eventBegin.isSome && includedCond b e ev)) := by
      rw [included, timelineIter]
      have h2 := (List.perm_insertionSort startLE
        (evs.filter (fun ev => ev.eventBegin.isSome))).filter (includedCond b e)
      refine h2.trans ?_
      rw [List.filter_filter]
      exact List.Perm.of_eq (List.filter_congr (fun ev _ => by
        rw [Bool.and_comm]))
    refine ⟨hsorted, hperm, ?_⟩
    intro ev
    rw [hperm.mem_iff, List.mem_filter]
    constructor
    · rintro ⟨hm, hcond⟩
      rw [Bool.and_eq_true] at hcond
      obtain ⟨hsome, hincl⟩ := hcond
      rw [Option.isSome_iff_exists] at hsome
      obtain ⟨s, hs⟩ := hsome
      rw [includedCond, Bool.and_eq_true, decide_eq_true_iff, decide_eq_true_iff] at hincl
      refine ⟨hm, s, hs, ?_, hincl.2⟩
      have : startKey ev = s := by rw [startKey, hs]; rfl
      rw [← this]
      exact hincl.1
    · rintro ⟨hm, s, hs, hb, he⟩
      refine ⟨hm, ?_⟩
      rw [Bool.and_eq_true]
      constructor
      · rw [hs]; rfl
      · rw [includedCond, Bool.and_eq_true, decide_eq_true_iff, decide_eq_true_iff]
        refine ⟨?_, he⟩
        have : startKey ev = s := by rw [startKey, hs]; rfl
        rw [this]
        exact hb
  · decide

/-! ### Claim C6 -/

theorem stripCR_ne_nil (l : PStr) (h : isBlank l = false) : stripCR l ≠ [] := by
  intro hnil
  rw [stripCR, List.rdropWhile_eq_nil_iff] at hnil
  have hall : ∀ c ∈ l, c = '\r' := by
    intro c hc
    rw [← List.takeWhile_append_dropWhile (p := fun c => c == '\r') (l := l)] at hc
    rcases List.mem_append.mp hc with h1 | h2
    · have := List.mem_takeWhile_imp h1
      simpa using this
    · simpa using hnil c h2
  have hblank : isBlank l = true := by
    rw [isBlank, List.all_eq_true]
    intro c hc
    rw [hall c hc]
    rfl
  rw [hblank] at h
  cases h

theorem unfoldAux_no_cont (lines : List PStr) :
    ∀ current : PStr, current ≠ [] →
    (∀ l ∈ lines, l.head? ≠ some ' ' ∧ l.head? ≠ some '\t') →
    unfoldAux current lines =
      current :: (lines.filter (fun l => !isBlank l)).map stripCR := by
  induction lines with
  | nil =>
      intro c hc _
      rw [unfoldAux]
      simp [hc]
  | cons l rest ih =>
      intro c hc hno
      have hl := hno l (List.mem_cons_self l rest)
      have hrest : ∀ x ∈ rest, x.head? ≠ some ' ' ∧ x.head? ≠ some '\t' :=
        fun x hx => hno x (List.mem_cons_of_mem l hx)
      rw [unfoldAux]
      by_cases hb : isBlank l
      · rw [if_pos hb, ih c hc hrest]
        simp [hb]
      · rw [if_neg hb]
        rw [if_neg (by simpa [List.isEmpty_eq_false] using hc)]
        rw [if_neg (by simp [hl.1, hl.2])]
        rw [ih (stripCR l) (stripCR_ne_nil l (by simpa using hb)) hrest]
        simp [hb]

/-- C6 (amended): on inputs in which no line starts with a space or tab,
the unfolder emits exactly the non-blank lines in order, each stripped of
its *leading and trailing* carriage returns (Python `strip('\r')`); and
`unfold(["FOO:BAR", " BAZ"])` yields the single logical line
`"FOO:BARBAZ"`. -/
theorem c6_unfold_identity_modulo_blank_and_cr :
    (∀ lines : List PStr,
      (∀ l ∈ lines, l.head? ≠ some ' ' ∧ l.head? ≠ some '\t') →
      unfoldLines lines = (lines.filter (fun l => !isBlank l)).map stripCR) ∧
    unfoldLines [("FOO:BAR".toList), (" BAZ".toList)] = [("FOO:BARBAZ".toList)] := by
  constructor
  · intro lines hno
    rw [unfoldLines]
    induction lines with
    | nil => rfl
    | cons l rest ih =>
        have hl := hno l (List.mem_cons_self l rest)
        have hrest : ∀ x ∈ rest, x.head? ≠ some ' ' ∧ x.head? ≠ some '\t' :=
          fun x hx => hno x (List.mem_cons_of_mem l hx)
        rw [unfoldAux]
        by_cases hb : isBlank l
        · rw [if_pos hb, ih hrest]
          simp [hb]
        · rw [if_neg hb, if_pos List.isEmpty_nil,
            unfoldAux_no_cont rest (stripCR l)
              (stripCR_ne_nil l (by simpa using hb)) hrest]
          simp [hb]
  · decide

/-- The claim's normalization, stated from the spec's words: only the
*trailing* carriage returns removed. -/
def specStripTrailingCR (l : PStr) : PStr :=
  l.rdropWhile (fun c => c == '\r')

/-- C6 counterexample: on the single line `"\rA"` (which does not start
with a space or tab and is not blank) the unfolder emits `"A"` — the
*leading* carriage return is removed as well — whereas stripping only the
trailing carriage return as the claim states would keep `"\rA"`. -/
theorem c6_leading_cr_also_stripped :
    unfoldLines [('\r' :: 'A' :: [])] = [('A' :: [])] ∧
      ([('\r' :: 'A' :: [])].filter (fun l => !isBlank l)).map specStripTrailingCR =
        [('\r' :: 'A' :: [])] ∧
      ('A' :: []) ≠ ('\r' :: 'A' :: []) := by
  refine ⟨?_, ?_, by decide⟩
  · rfl
  · rfl

/-! ### Claim C5 -/

/-- A grammar-conforming token: non-empty upper-case name over the name
character class, parameters with non-empty names over the name class and
at least one value each, all values over the safe (bare) class, distinct
parameter names (a Python dict cannot hold duplicates), and a value free
of raw line breaks. -/
def ValidToken (t : ContentLine) : Prop :=
  t.name ≠ [] ∧ (∀ c ∈ t.name, nameChar c = true) ∧
    t.name.map Char.toUpper = t.name ∧
    (∀ p ∈ t.params, p.1 ≠ [] ∧ (∀ c ∈ p.1, nameChar c = true) ∧ p.2 ≠ [] ∧
      (∀ v ∈ p.2, ∀ c ∈ v, safeChar c = true)) ∧
    (t.params.map Prod.fst).Nodup ∧
    (∀ c ∈ t.value, valueChar c = true)

theorem safeChar_spec (c : Char) (h : safeChar c = true) :
    c ≠ ';' ∧ c ≠ ',' ∧ c ≠ ':' ∧ c ≠ '"' ∧ c ≠ '\r' ∧ c ≠ '\n' := by
  simp [safeChar] at h
  tauto

theorem nameChar_to_valueChar (c : Char) (h : nameChar c = true) : valueChar c = true := by
  have h1 : c ≠ '\r' := by rintro rfl; exact absurd h (by decide)
  have h2 : c ≠ '\n' := by rintro rfl; exact absurd h (by decide)
  simp [valueChar, h1, h2]

theorem safeChar_to_valueChar (c : Char) (h : safeChar c = true) : valueChar c = true := by
  obtain ⟨_, _, _, _, h5, h6⟩ := safeChar_spec c h
  simp [valueChar, h5, h6]

theorem takeWhile_dropWhile_all_stop (p : Char → Bool) (xs ys : PStr)
    (hx : ∀ x ∈ xs, p x = true)
    (hy : ∀ y, ys.head? = some y → p y = false) :
    (xs ++ ys).takeWhile p = xs ∧ (xs ++ ys).dropWhile p = ys := by
  induction xs with
  | nil =>
      simp only [List.nil_append]
      cases ys with
      | nil => simp
      | cons y t =>
          have := hy y rfl
          simp [List.takeWhile_cons, List.dropWhile_cons, this]
  | cons x t ih =>
      have hpx := hx x (List.mem_cons_self x t)
      obtain ⟨h1, h2⟩ := ih (fun a ha => hx a (List.mem_cons_of_mem x ha))
      simp [List.takeWhile_cons, List.dropWhile_cons, hpx, h1, h2]

theorem parseOneValue_safe (v rest : PStr)
    (hv : ∀ c ∈ v, safeChar c = true)
    (hrest : ∀ y, rest.head? = some y → (y = ';' ∨ y = ':' ∨ y = ',')) :
    parseOneValue (v ++ rest) = some (v, rest) := by
  have hnotq : (v ++ rest).head? ≠ some '"' := by
    cases v with
    | nil =>
        simp only [List.nil_append]
        intro hq
        rcases hrest '"' hq with h | h | h <;> cases h
    | cons c t =>
        simp only [List.cons_append, List.head?_cons]
        intro hq
        have hc := hv c (List.mem_cons_self c t)
        injection hq with hq
        subst hq
        exact absurd hc (by decide)
  have hstop : ∀ y, rest.head? = some y → safeChar y = false := by
    intro y hy
    rcases hrest y hy with rfl | rfl | rfl <;> decide
  obtain ⟨h1, h2⟩ := takeWhile_dropWhile_all_stop safeChar v rest hv hstop
  rw [parseOneValue, if_neg hnotq, h1, h2]

theorem intercalate_one (v : PStr) : List.intercalate [','] [v] = v := by
  simp [List.intercalate]

theorem intercalate_two (v w : PStr) (vs : List PStr) :
    List.intercalate [','] (v :: w :: vs) =
      v ++ (',' :: List.intercalate [','] (w :: vs)) := by
  simp [List.intercalate, List.intersperse]

theorem parseValues_serialized : ∀ (vs : List PStr) (rest : PStr), vs ≠ [] →
    (∀ v ∈ vs, ∀ c ∈ v, safeChar c = true) →
    (∀ y, rest.head? = some y → (y = ';' ∨ y = ':')) →
    parseValues (List.intercalate [','] vs ++ rest) = some (vs, rest)
  | [], _, h, _, _ => absurd rfl h
  | [v], rest, _, hsafe, hrest => by
      have hone : parseOneValue (v ++ rest) = some (v, rest) :=
        parseOneValue_safe v rest (hsafe v (by simp))
          (fun y hy => by
            rcases hrest y hy with h | h
            · exact Or.inl h
            · exact Or.inr (Or.inl h))
      have hnc : ¬ rest.head? = some ',' := by
        intro hc
        rcases hrest ',' hc with h | h <;> cases h
      rw [intercalate_one, parseValues, hone]
      simp only [hnc, dite_false]
  | v :: w :: vs, rest, _, hsafe, hrest => by
      have hxeq : List.intercalate [','] (v :: w :: vs) ++ rest =
          v ++ (',' :: (List.intercalate [','] (w :: vs) ++ rest)) := by
        rw [intercalate_two]
        simp [List.append_assoc]
      have hone : parseOneValue
          (v ++ (',' :: (List.intercalate [','] (w :: vs) ++ rest))) =
          some (v, ',' :: (List.intercalate [','] (w :: vs) ++ rest)) :=
        parseOneValue_safe v _ (hsafe v (by simp))
          (fun y hy => by
            simp only [List.head?_cons] at hy
            injection hy with hy
            exact Or.inr (Or.inr hy.symm))
      have hih := parseValues_serialized (w :: vs) rest (by simp)
        (fun x hx => hsafe x (List.mem_cons_of_mem v hx)) hrest
      rw [hxeq, parseValues, hone]
      simp only [List.head?_cons, dite_true]
      rw [List.tail_cons, hih]

theorem flatten_params_head (ps : List (PStr × List PStr)) (value : PStr) :
    ∀ y, ((ps.map paramStr).flatten ++ ':' :: value).head? = some y →
      (y = ';' ∨ y = ':') := by
  intro y hy
  cases ps with
  | nil =>
      simp at hy
      exact Or.inr hy.symm
  | cons p qs =>
      simp only [List.map_cons, List.flatten_cons, paramStr, List.cons_append,
        List.head?_cons] at hy
      injection hy with hy
      exact Or.inl hy.symm

theorem parseParams_serialized : ∀ (ps : List (PStr × List PStr)) (value : PStr),
    (∀ p ∈ ps, p.1 ≠ [] ∧ (∀ c ∈ p.1, nameChar c = true) ∧ p.2 ≠ [] ∧
      (∀ v ∈ p.2, ∀ c ∈ v, safeChar c = true)) →
    parseParams ((ps.map paramStr).flatten ++ ':' :: value) =
      some (ps, ':' :: value)
  | [], value, _ => by
      rw [List.map_nil, List.flatten_nil, List.nil_append, parseParams]
      simp
  | p :: ps, value, hval => by
      obtain ⟨hp1, hp2, hp3, hp4⟩ := hval p (List.mem_cons_self p ps)
      have hrest := flatten_params_head ps value
      have hih := parseParams_serialized ps value
        (fun q hq => hval q (List.mem_cons_of_mem p hq))
      have hxeq : ((p :: ps).map paramStr).flatten ++ ':' :: value =
          ';' :: (p.1 ++ ('=' :: (List.intercalate [','] p.2 ++
            ((ps.map paramStr).flatten ++ ':' :: value)))) := by
        simp only [List.map_cons, List.flatten_cons, paramStr, List.cons_append,
          List.append_assoc]
      have htake : (p.1 ++ ('=' :: (List.intercalate [','] p.2 ++
            ((ps.map paramStr).flatten ++ ':' :: value)))).takeWhile nameChar = p.1 ∧
          (p.1 ++ ('=' :: (List.intercalate [','] p.2 ++
            ((ps.map paramStr).flatten ++ ':' :: value)))).dropWhile nameChar =
            '=' :: (List.intercalate [','] p.2 ++
              ((ps.map paramStr).flatten ++ ':' :: value)) :=
        takeWhile_dropWhile_all_stop nameChar p.1 _ hp2
          (fun y hy => by
            simp only [List.head?_cons] at hy
            injection hy with hy
            rw [← hy]
            decide)
      have hvals : parseValues (List.intercalate [','] p.2 ++
          ((ps.map paramStr).flatten ++ ':' :: value)) =
          some (p.2, (ps.map paramStr).flatten ++ ':' :: value) :=
        parseValues_serialized p.2 _ hp3 hp4 hrest
      rw [hxeq, parseParams]
      simp only [List.head?_cons, dite_true, List.tail_cons, htake.1, htake.2,
        hp1, ite_false, dite_true, hvals, hih]
      rw [htake.2]
      simp only [List.tail_cons]
      split
      · rename_i hv
        rw [hvals] at hv
        cases hv
      · rename_i vs rest2 hv
        rw [hvals] at hv
        injection hv with hv
        rw [Prod.mk.injEq] at hv
        obtain ⟨rfl, rfl⟩ := hv
        rw [hih]

theorem valueChar_spec (c : Char) (h : valueChar c = true) : c ≠ '\r' ∧ c ≠ '\n' := by
  simp [valueChar] at h
  tauto

theorem mem_intercalate_comma : ∀ (vs : List PStr) (c : Char),
    c ∈ List.intercalate [','] vs → c = ',' ∨ ∃ v ∈ vs, c ∈ v
  | [], c => by simp [List.intercalate]
  | [v], c => by
      rw [intercalate_one]
      intro hc
      exact Or.inr ⟨v, List.mem_cons_self v [], hc⟩
  | v :: w :: vs, c => by
      rw [intercalate_two]
      intro hc
      rcases List.mem_append.mp hc with h1 | h2
      · exact Or.inr ⟨v, List.mem_cons_self v _, h1⟩
      · rcases List.mem_cons.mp h2 with rfl | h3
        · exact Or.inl rfl
        · rcases mem_intercalate_comma (w :: vs) c h3 with h4 | ⟨x, hx, hcx⟩
          · exact Or.inl h4
          · exact Or.inr ⟨x, List.mem_cons_of_mem v hx, hcx⟩

theorem contentLineStr_all_valueChar (t : ContentLine) (h : ValidToken t) :
    ∀ c ∈ contentLineStr t, valueChar c = true := by
  obtain ⟨hn1, hn2, hup, hps, hnd, hv⟩ := h
  intro c hc
  rw [contentLineStr] at hc
  rcases List.mem_append.mp hc with hc1 | hc2
  · rcases List.mem_append.mp hc1 with hname | hflat
    · exact nameChar_to_valueChar c (hn2 c hname)
    · obtain ⟨l, hl, hcl⟩ := List.mem_flatten.mp hflat
      obtain ⟨p, hp, rfl⟩ := List.mem_map.mp hl
      obtain ⟨hp1, hp2, hp3, hp4⟩ := hps p hp
      rw [paramStr] at hcl
      rcases List.mem_cons.mp hcl with rfl | hcl2
      · decide
      · rcases List.mem_append.mp hcl2 with hpn | hpv
        · exact nameChar_to_valueChar c (hp2 c hpn)
        · rcases List.mem_cons.mp hpv with rfl | hiv
          · decide
          · rcases mem_intercalate_comma p.2 c hiv with rfl | ⟨x, hx, hcx⟩
            · decide
            · exact safeChar_to_valueChar c (hp4 x hx c hcx)
  · rcases List.mem_cons.mp hc2 with rfl | hcv
    · decide
    · exact hv c hcv

theorem grammarParse_serialized (t : ContentLine) (h : ValidToken t) :
    grammarParse (contentLineStr t) = some (t.name, t.params, t.value) := by
  obtain ⟨hn1, hn2, hup, hps, hnd, hv⟩ := h
  have hsplit : contentLineStr t =
      t.name ++ ((t.params.map paramStr).flatten ++ ':' :: t.value) := by
    rw [contentLineStr, List.append_assoc]
  have htake := takeWhile_dropWhile_all_stop nameChar t.name
    ((t.params.map paramStr).flatten ++ ':' :: t.value) hn2
    (fun y hy => by
      rcases flatten_params_head t.params t.value y hy with rfl | rfl <;> decide)
  have hpp := parseParams_serialized t.params t.value hps
  rw [hsplit, grammarParse]
  simp only [htake.1, htake.2, hn1, ite_false, hpp]
  rw [if_pos (List.all_eq_true.mpr hv)]

theorem foldl_dictInsert_nodup : ∀ (ps acc : List (PStr × List PStr)),
    (∀ p ∈ ps, ∀ q ∈ acc, q.1 ≠ p.1) → (ps.map Prod.fst).Nodup →
    ps.foldl (fun d p => dictInsert d p.1 p.2) acc = acc ++ ps
  | [], acc, _, _ => by simp
  | p :: ps, acc, hdisj, hnd => by
      have hnotin : acc.any (fun q => q.1 = p.1) = false := by
        rw [List.any_eq_false]
        intro q hq
        simp [hdisj p (List.mem_cons_self p ps) q hq]
      have hins : dictInsert acc p.1 p.2 = acc ++ [(p.1, p.2)] := by
        rw [dictInsert, if_neg]
        rw [hnotin]
        simp
      have hnd2 : (p.1 :: ps.map Prod.fst).Nodup := by
        rw [List.map_cons] at hnd
        exact hnd
      have hhead : p.1 ∉ ps.map Prod.fst := (List.nodup_cons.mp hnd2).1
      have hdisj2 : ∀ x ∈ ps, ∀ q ∈ acc ++ [(p.1, p.2)], q.1 ≠ x.1 := by
        intro x hx q hq
        rcases List.mem_append.mp hq with hq1 | hq2
        · exact hdisj x (List.mem_cons_of_mem p hx) q hq1
        · rcases List.mem_cons.mp hq2 with rfl | hfalse
          · intro hcontra
            exact hhead (hcontra ▸ List.mem_map_of_mem Prod.fst hx)
          · simp at hfalse
      have htail : (ps.map Prod.fst).Nodup := (List.nodup_cons.mp hnd2).2
      rw [List.foldl_cons, hins,
        foldl_dictInsert_nodup ps (acc ++ [(p.1, p.2)]) hdisj2 htail]
      simp

theorem interpretAst_serialized (t : ContentLine) (h : ValidToken t) :
    interpretAst (t.name, t.params, t.value) = t := by
  obtain ⟨hn1, hn2, hup, hps, hnd, hv⟩ := h
  rw [interpretAst, mkContentLine]
  have hfold := foldl_dictInsert_nodup t.params [] (by simp) hnd
  simp only [List.nil_append] at hfold
  simp only [hfold]
  cases t with
  | mk n ps v => simp_all

/-- C5: serializing a grammar-conforming token with `ContentLine.__str__`
and tokenizing the result with `ContentLine.parse` yields the very same
token — name, parameter order, per-parameter value order and value all
preserved (the equality is structural, which entails Python `==`). -/
theorem c5_round_trip (t : ContentLine) (h : ValidToken t) :
    contentLineParse (contentLineStr t) = .ok t := by
  have hall := contentLineStr_all_valueChar t h
  have hnocr : (contentLineStr t).any (fun c => c = '\n' || c = '\r') = false := by
    rw [List.any_eq_false]
    intro c hc
    obtain ⟨h1, h2⟩ := valueChar_spec c (hall c hc)
    simp [h1, h2]
  rw [contentLineParse, if_neg (by rw [hnocr]; simp),
    grammarParse_serialized t h]
  exact congrArg Except.ok (interpretAst_serialized t h)

/-- C5 witness: the round trip at the concrete token
`FOO;BAR=1:YOLO` of the source's own docstring. -/
theorem c5_round_trip_witness :
    contentLineParse (contentLineStr
      ⟨"FOO".toList, [("BAR".toList, [('1' :: [])])], "YOLO".toList⟩) =
      .ok ⟨"FOO".toList, [("BAR".toList, [('1' :: [])])], "YOLO".toList⟩ :=
  c5_round_trip ⟨"FOO".toList, [("BAR".toList, [('1' :: [])])], "YOLO".toList⟩
    (by constructor
        · decide
        · constructor
          · decide
          · constructor
            · decide
            · constructor
              · decide
              · constructor
                · decide
                · decide)
